import Mathlib

/-!
Verification of the document-to-index ingestion pipeline of `ingest.py`:
a shallow embedding of the remote tree lister, the file materializer,
the text extractor, the batch pipeline and the `main` driver, together
with theorems settling the specification claims about them.
-/

namespace Ingest

/-- The MIME type string marking a folder in the remote store
(`application/vnd.google-apps.folder` in `ingest.py`). -/
def folderMime : String := "application/vnd.google-apps.folder"

/-- The MIME type string marking a shortcut
(`application/vnd.google-apps.shortcut` in `ingest.py`). -/
def shortcutMime : String := "application/vnd.google-apps.shortcut"

/-- One item returned by a listing page: the `id`, `name`, `mimeType`
fields requested by `list_files_recursive`. -/
structure Item where
  id : String
  name : String
  mimeType : String
deriving DecidableEq, Repr

/-- A file record produced by the lister: the item fields plus the
`path` tag attached by `item['path'] = current_path`. -/
structure TaggedFile where
  id : String
  name : String
  mimeType : String
  path : String
deriving DecidableEq, Repr

/-- Path extension for a discovered sub-folder:
`f"{current_path}/{item['name']}" if current_path else item['name']`. -/
def joinPath (p n : String) : String := if p = "" then n else p ++ "/" ++ n

/-- Result of fetching one listing page: either the page's items, or the
exception raised by the `service.files().list(...).execute()` call. -/
def PageResult : Type := Except Unit (List Item)

/-- A listing service: for a folder id, the sequence of pages its
pagination would yield (the list ends where no `nextPageToken` is
returned; an `Except.error` entry is a page whose fetch raises). -/
def Service : Type := String → List PageResult

/-- Classification of one page's items, as in the `for item in items`
loop of `list_files_recursive`: folders become queue entries
`(item['id'], new_path)`, everything else becomes a tagged file record. -/
def processItems : List Item → String → List (String × String) × List TaggedFile
  | [], _ => ([], [])
  | it :: rest, p =>
      if it.mimeType = folderMime then
        ((it.id, joinPath p it.name) :: (processItems rest p).1, (processItems rest p).2)
      else
        ((processItems rest p).1,
          { id := it.id, name := it.name, mimeType := it.mimeType, path := p } ::
            (processItems rest p).2)

/-- Page loop of `list_files_recursive` for one folder: pages are
consumed in order until the token chain ends; a raising page stops the
loop (the `except` clause `break`s), keeping what earlier pages gave. -/
def processPages : List PageResult → String → List (String × String) × List TaggedFile
  | [], _ => ([], [])
  | Except.error _ :: _, _ => ([], [])
  | Except.ok its :: rest, p =>
      ((processItems its p).1 ++ (processPages rest p).1,
       (processItems its p).2 ++ (processPages rest p).2)

/-- The outer `while folders_to_scan` loop of `list_files_recursive`:
pop the front of the queue, run its page loop, append the discovered
sub-folders at the back of the queue and the file records to the
accumulator.  `fuel` bounds the number of folders processed (the Python
loop just runs until the queue empties). -/
def listAux (svc : Service) : Nat → List (String × String) → List TaggedFile → List TaggedFile
  | 0, _, acc => acc
  | _ + 1, [], acc => acc
  | n + 1, (f, p) :: q, acc =>
      listAux svc n (q ++ (processPages (svc f) p).1) (acc ++ (processPages (svc f) p).2)

/-- `list_files_recursive(service, folder_id, path)`. -/
def list_files_recursive (svc : Service) (fuel : Nat) (folderId : String)
    (path : String := "") : List TaggedFile :=
  listAux svc fuel [(folderId, path)] []

/-! ### Reference model: the remote folder tree

A concrete folder tree, used as the specification-side description of
what is reachable from the root by recursive descent. -/

/-- A node of the remote folder hierarchy: a leaf file (with its MIME
type string) or a folder with a list of children. -/
inductive GTree where
  | file (id name mimeType : String) : GTree
  | folder (id name : String) (children : List GTree) : GTree
deriving Repr

/-- The listing item a node shows up as in its parent's pages. -/
def itemOf : GTree → Item
  | .file i n m => ⟨i, n, m⟩
  | .folder i n _ => ⟨i, n, folderMime⟩

/-- The items of a folder's children, in order. -/
def childItems (cs : List GTree) : List Item := cs.map itemOf

/-- Identifier of a node. -/
def gid : GTree → String
  | .file i _ _ => i
  | .folder i _ _ => i

/-- Display name of a node. -/
def gname : GTree → String
  | .file _ n _ => n
  | .folder _ n _ => n

/-- Children of a node (empty for a leaf file). -/
def gchildren : GTree → List GTree
  | .file _ _ _ => []
  | .folder _ _ cs => cs

/-- Number of folder nodes in a forest, nested folders included. -/
def folderCountF : List GTree → Nat
  | [] => 0
  | .file _ _ _ :: ts => folderCountF ts
  | .folder _ _ cs :: ts => 1 + folderCountF cs + folderCountF ts

/-- All folder nodes of a forest, nested folders included. -/
def folderNodesF : List GTree → List GTree
  | [] => []
  | .file _ _ _ :: ts => folderNodesF ts
  | .folder i n cs :: ts => .folder i n cs :: (folderNodesF cs ++ folderNodesF ts)

/-- The top-level folder nodes of a forest. -/
def subFolders : List GTree → List GTree
  | [] => []
  | .file _ _ _ :: ts => subFolders ts
  | .folder i n cs :: ts => .folder i n cs :: subFolders ts

/-- A well-formed forest: no leaf file carries the folder MIME type
(in the remote store, the folder MIME type is what *makes* an item a
folder, so a leaf carrying it cannot arise). -/
def wfForest : List GTree → Bool
  | [] => true
  | .file _ _ m :: ts => decide (m ≠ folderMime) && wfForest ts
  | .folder _ _ cs :: ts => wfForest cs && wfForest ts

/-- Specification-side recursive descent: the file records reachable in
a forest, each tagged with the slash-joined folder path it is found
under. -/
def specFiles : List GTree → String → List TaggedFile
  | [], _ => []
  | .file i n m :: ts, p => ⟨i, n, m, p⟩ :: specFiles ts p
  | .folder i n cs :: ts, p => specFiles cs (joinPath p n) ++ specFiles ts p

/-- The queue entries the code builds for the top-level folders of a
forest listed under path `p`. -/
def subPairs : List GTree → String → List (String × String)
  | [], _ => []
  | .file _ _ _ :: ts, p => subPairs ts p
  | .folder i n _ :: ts, p => (i, joinPath p n) :: subPairs ts p

/-- The file records the code builds for the top-level files of a
forest listed under path `p`. -/
def fileTags : List GTree → String → List TaggedFile
  | [], _ => []
  | .file i n m :: ts, p => ⟨i, n, m, p⟩ :: fileTags ts p
  | .folder _ _ _ :: ts, p => fileTags ts p

/-- Join of a page sequence when every page fetch succeeds; `none` if
some page raises. -/
def pagesJoinOk : List PageResult → Option (List Item)
  | [] => some []
  | Except.error _ :: _ => none
  | Except.ok its :: rest => (pagesJoinOk rest).map (its ++ ·)

/-- A service agrees with a forest `F` when, for every folder node `g`
of `F`, listing `g`'s id succeeds on every page and the pages' items
joined together are the items of `g`'s children, possibly reordered. -/
def Coherent (svc : Service) (F : List GTree) : Prop :=
  ∀ g ∈ folderNodesF F, ∃ its,
    pagesJoinOk (svc (gid g)) = some its ∧ its.Perm (childItems (gchildren g))

/-! ### Lemmas about the lister -/

theorem processItems_append (a b : List Item) (p : String) :
    processItems (a ++ b) p =
      ((processItems a p).1 ++ (processItems b p).1,
       (processItems a p).2 ++ (processItems b p).2) := by
  induction a with
  | nil => simp [processItems]
  | cons it rest ih =>
      by_cases h : it.mimeType = folderMime <;> simp [processItems, h, ih]

theorem processPages_join (ps : List PageResult) (its : List Item) (p : String)
    (h : pagesJoinOk ps = some its) : processPages ps p = processItems its p := by
  induction ps generalizing its with
  | nil =>
      simp [pagesJoinOk] at h
      subst h; rfl
  | cons pg rest ih =>
      match pg with
      | Except.error e => simp [pagesJoinOk] at h
      | Except.ok l =>
          simp only [pagesJoinOk, Option.map_eq_some'] at h
          obtain ⟨its', h1, h2⟩ := h
          subst h2
          simp [processPages, ih its' h1, processItems_append]

theorem processItems_perm {a b : List Item} (h : a.Perm b) (p : String) :
    (processItems a p).1.Perm (processItems b p).1 ∧
    (processItems a p).2.Perm (processItems b p).2 := by
  induction h with
  | nil => exact ⟨List.Perm.refl _, List.Perm.refl _⟩
  | cons x _ ih =>
      by_cases hx : x.mimeType = folderMime <;>
        simp only [processItems, hx, if_pos, if_neg, not_false_iff] <;>
        first
          | exact ⟨ih.1.cons _, ih.2⟩
          | exact ⟨ih.1, ih.2.cons _⟩
  | swap x y l =>
      by_cases hx : x.mimeType = folderMime <;> by_cases hy : y.mimeType = folderMime <;>
        simp only [processItems, hx, hy, if_pos, if_neg, not_false_iff] <;>
        first
          | exact ⟨List.Perm.swap _ _ _, List.Perm.refl _⟩
          | exact ⟨List.Perm.refl _, List.Perm.swap _ _ _⟩
          | exact ⟨List.Perm.refl _, List.Perm.refl _⟩
  | trans _ _ ih1 ih2 => exact ⟨ih1.1.trans ih2.1, ih1.2.trans ih2.2⟩

theorem processItems_childItems (cs : List GTree) (p : String)
    (hw : wfForest cs = true) :
    processItems (childItems cs) p = (subPairs cs p, fileTags cs p) := by
  induction cs with
  | nil => rfl
  | cons t ts ih =>
      cases t with
      | file i n m =>
          simp only [wfForest, Bool.and_eq_true, decide_eq_true_eq] at hw
          have ih' := ih hw.2
          simp only [childItems] at ih'
          simp [childItems, itemOf, processItems, hw.1, subPairs, fileTags, ih']
      | folder i n cs' =>
          simp only [wfForest, Bool.and_eq_true] at hw
          have ih' := ih hw.2
          simp only [childItems] at ih'
          simp [childItems, itemOf, processItems, subPairs, fileTags, ih']

theorem subPairs_eq_map (cs : List GTree) (p : String) :
    subPairs cs p = (subFolders cs).map (fun c => (gid c, joinPath p (gname c))) := by
  induction cs with
  | nil => rfl
  | cons t ts ih => cases t <;> simp [subPairs, subFolders, gid, gname, ih]

theorem perm_map_preimage {α β : Type} (f : α → β) :
    ∀ (l : List β) (xs : List α), l.Perm (xs.map f) →
      ∃ ys : List α, ys.Perm xs ∧ l = ys.map f := by
  intro l
  induction l with
  | nil =>
      intro xs h
      have hx : xs.map f = [] := (List.nil_perm.mp h)
      refine ⟨[], ?_, rfl⟩
      rw [List.map_eq_nil_iff] at hx
      simp [hx]
  | cons b l' ih =>
      intro xs h
      have hb : b ∈ xs.map f := h.subset (List.mem_cons_self _ _)
      obtain ⟨x, hxmem, hfx⟩ := List.mem_map.mp hb
      obtain ⟨s, t, rfl⟩ := List.append_of_mem hxmem
      have hmid : (s.map f ++ f x :: t.map f).Perm (f x :: (s.map f ++ t.map f)) :=
        List.perm_middle
      have h2 : (b :: l').Perm (f x :: (s.map f ++ t.map f)) := by
        refine h.trans ?_
        rw [List.map_append, List.map_cons]
        exact hmid
      rw [hfx] at h2
      have h3 : l'.Perm ((s ++ t).map f) := by
        rw [List.map_append]
        exact h2.cons_inv
      obtain ⟨ys', hys', rfl⟩ := ih (s ++ t) h3
      refine ⟨x :: ys', ?_, by simp [hfx]⟩
      exact (hys'.cons x).trans List.perm_middle.symm

theorem folderCountF_append (a b : List GTree) :
    folderCountF (a ++ b) = folderCountF a + folderCountF b := by
  induction a with
  | nil => simp [folderCountF]
  | cons t ts ih => cases t <;> simp [folderCountF, ih] <;> omega

theorem folderCountF_perm {a b : List GTree} (h : a.Perm b) :
    folderCountF a = folderCountF b := by
  induction h with
  | nil => rfl
  | cons x _ ih => cases x <;> simp [folderCountF, ih]
  | swap x y l => cases x <;> cases y <;> simp [folderCountF] <;> omega
  | trans _ _ ih1 ih2 => omega

theorem folderCountF_subFolders (cs : List GTree) :
    folderCountF (subFolders cs) = folderCountF cs := by
  induction cs with
  | nil => rfl
  | cons t ts ih => cases t <;> simp [folderCountF, subFolders, ih]

theorem folderNodesF_shape {F : List GTree} {g : GTree} (h : g ∈ folderNodesF F) :
    ∃ i n cs, g = GTree.folder i n cs := by
  induction F using folderNodesF.induct with
  | case1 => simp [folderNodesF] at h
  | case2 i n m ts ih => exact ih (by simpa [folderNodesF] using h)
  | case3 i n cs ts ih1 ih2 =>
      simp only [folderNodesF, List.mem_cons, List.mem_append] at h
      rcases h with h | h | h
      · exact ⟨i, n, cs, h⟩
      · exact ih1 h
      · exact ih2 h

theorem subFolders_subset (cs : List GTree) : subFolders cs ⊆ folderNodesF cs := by
  induction cs with
  | nil => simp [subFolders]
  | cons t ts ih =>
      cases t with
      | file i n m => simpa [subFolders, folderNodesF] using ih
      | folder i n cs' =>
          intro x hx
          simp only [subFolders, List.mem_cons] at hx
          simp only [folderNodesF, List.mem_cons, List.mem_append]
          rcases hx with h | h
          · exact Or.inl h
          · exact Or.inr (Or.inr (ih h))

theorem folderNodesF_closure {F : List GTree} {g : GTree} (h : g ∈ folderNodesF F) :
    folderNodesF (gchildren g) ⊆ folderNodesF F := by
  induction F using folderNodesF.induct with
  | case1 => simp [folderNodesF] at h
  | case2 i n m ts ih =>
      simp only [folderNodesF] at h ⊢
      exact ih h
  | case3 i n cs ts ih1 ih2 =>
      simp only [folderNodesF, List.mem_cons, List.mem_append] at h
      intro x hx
      simp only [folderNodesF, List.mem_cons, List.mem_append]
      rcases h with h | h | h
      · subst h
        exact Or.inr (Or.inl (by simpa [gchildren] using hx))
      · exact Or.inr (Or.inl (ih1 h hx))
      · exact Or.inr (Or.inr (ih2 h hx))

theorem wfForest_nodes {F : List GTree} (hw : wfForest F = true) {g : GTree}
    (h : g ∈ folderNodesF F) : wfForest (gchildren g) = true := by
  induction F using folderNodesF.induct with
  | case1 => simp [folderNodesF] at h
  | case2 i n m ts ih =>
      simp only [wfForest, Bool.and_eq_true] at hw
      exact ih hw.2 (by simpa [folderNodesF] using h)
  | case3 i n cs ts ih1 ih2 =>
      simp only [wfForest, Bool.and_eq_true] at hw
      simp only [folderNodesF, List.mem_cons, List.mem_append] at h
      rcases h with h | h | h
      · subst h; simpa [gchildren] using hw.1
      · exact ih1 hw.1 h
      · exact ih2 hw.2 h

theorem specFiles_decomp (cs : List GTree) (p : String) :
    (specFiles cs p).Perm
      (fileTags cs p ++ (subFolders cs).flatMap
        (fun c => specFiles (gchildren c) (joinPath p (gname c)))) := by
  induction cs with
  | nil => simp [specFiles, fileTags, subFolders]
  | cons t ts ih =>
      cases t with
      | file i n m =>
          simpa [specFiles, fileTags, subFolders] using ih.cons (⟨i, n, m, p⟩ : TaggedFile)
      | folder i n cs' =>
          simp only [specFiles, fileTags, subFolders, List.flatMap_cons, gchildren, gname]
          refine ((ih.append_left (specFiles cs' (joinPath p n))).trans ?_)
          exact (List.perm_append_comm_assoc _ _ _)

theorem map_fst_pairing {α β : Type} (f : α → β) (l : List α) :
    (l.map (fun c => (c, f c))).map Prod.fst = l := by
  induction l with
  | nil => rfl
  | cons d dd ih => simp [ih]

/-- One step of the traversal loop. -/
theorem listAux_cons (svc : Service) (f p : String) (q : List (String × String))
    (acc : List TaggedFile) (n : Nat) :
    listAux svc (n + 1) ((f, p) :: q) acc =
      listAux svc n (q ++ (processPages (svc f) p).1)
        (acc ++ (processPages (svc f) p).2) := rfl

/-- The queue invariant of `list_files_recursive`: as long as every
queued folder id is a folder node of the forest `F` that the service
agrees with, and the fuel covers the folder nodes still to be visited,
the traversal collects (up to order) exactly the recursive-descent file
records of the queued folders, appended to the accumulator. -/
theorem listAux_spec (svc : Service) (F : List GTree)
    (hco : Coherent svc F) (hw : wfForest F = true) :
    ∀ (fuel : Nat) (gq : List (GTree × String)) (acc : List TaggedFile),
      (∀ e ∈ gq, e.1 ∈ folderNodesF F) →
      folderCountF (gq.map Prod.fst) ≤ fuel →
      (listAux svc fuel (gq.map (fun e => (gid e.1, e.2))) acc).Perm
        (acc ++ gq.flatMap (fun e => specFiles (gchildren e.1) e.2)) := by
  intro fuel
  induction fuel with
  | zero =>
      intro gq acc hmem hfuel
      cases gq with
      | nil => simp [listAux]
      | cons e rest =>
          exfalso
          obtain ⟨g, p⟩ := e
          obtain ⟨gi, gn, cs, rfl⟩ :=
            folderNodesF_shape (hmem (g, p) (List.mem_cons_self _ _))
          simp [folderCountF] at hfuel
  | succ n ih =>
      intro gq acc hmem hfuel
      cases gq with
      | nil => simp [listAux]
      | cons e rest =>
          obtain ⟨g, p⟩ := e
          obtain ⟨gi, gn, cs, rfl⟩ :=
            folderNodesF_shape (hmem (g, p) (List.mem_cons_self _ _))
          have hg : GTree.folder gi gn cs ∈ folderNodesF F :=
            hmem _ (List.mem_cons_self _ _)
          obtain ⟨its, hpj, hperm⟩ := hco _ hg
          have hgchild : gchildren (GTree.folder gi gn cs) = cs := rfl
          rw [hgchild] at hperm
          have hwcs : wfForest cs = true := by
            have := wfForest_nodes hw hg
            simpa [gchildren] using this
          have hpp : processPages (svc gi) p = processItems its p := by
            have := processPages_join (svc (gid (GTree.folder gi gn cs))) its p hpj
            simpa [gid] using this
          have hPI := processItems_perm hperm p
          have hC := processItems_childItems cs p hwcs
          -- the discovered sub-folder queue entries and file records
          have hfs : (processPages (svc gi) p).1.Perm (subPairs cs p) := by
            rw [hpp]
            exact hPI.1.trans (by rw [hC])
          have hgs : (processPages (svc gi) p).2.Perm (fileTags cs p) := by
            rw [hpp]
            exact hPI.2.trans (by rw [hC])
          obtain ⟨ds, hds, hdsmap⟩ :=
            perm_map_preimage (fun c => (gid c, joinPath p (gname c)))
              (processPages (svc gi) p).1 (subFolders cs)
              (by rw [← subPairs_eq_map]; exact hfs)
          -- the ghost queue matching the new concrete queue
          have hkey :
              (rest.map (fun e => (gid e.1, e.2)) ++ (processPages (svc gi) p).1) =
              ((rest ++ ds.map (fun c => (c, joinPath p (gname c)))).map
                (fun e => (gid e.1, e.2))) := by
            rw [List.map_append, List.map_map, hdsmap]
            rfl
          have hmem' : ∀ e ∈ rest ++ ds.map (fun c => (c, joinPath p (gname c))),
              e.1 ∈ folderNodesF F := by
            intro e he
            rcases List.mem_append.mp he with h | h
            · exact hmem e (List.mem_cons_of_mem _ h)
            · obtain ⟨c, hc, rfl⟩ := List.mem_map.mp h
              have hc' : c ∈ subFolders cs := (hds.mem_iff).mp hc
              have hc'' : c ∈ folderNodesF cs := subFolders_subset cs hc'
              have := folderNodesF_closure hg
              rw [hgchild] at this
              exact this hc''
          have hfuel' :
              folderCountF ((rest ++ ds.map (fun c => (c, joinPath p (gname c)))).map
                Prod.fst) ≤ n := by
            rw [List.map_append, folderCountF_append]
            have h2 : folderCountF ds = folderCountF cs := by
              rw [folderCountF_perm hds, folderCountF_subFolders]
            rw [map_fst_pairing (fun c => joinPath p (gname c)) ds, h2]
            simp only [List.map_cons, folderCountF] at hfuel
            omega
          have ihres := ih (rest ++ ds.map (fun c => (c, joinPath p (gname c))))
            (acc ++ (processPages (svc gi) p).2) hmem' hfuel'
          -- unfold one step of the traversal loop
          show (listAux svc (n + 1)
              ((gi, p) :: rest.map (fun e => (gid e.1, e.2))) acc).Perm
            (acc ++ ((GTree.folder gi gn cs, p) :: rest).flatMap
              (fun e => specFiles (gchildren e.1) e.2))
          rw [listAux_cons, hkey]
          refine ihres.trans ?_
          -- close the permutation by passing to multisets
          refine Multiset.coe_eq_coe.mp ?_
          have em1 : ((processPages (svc gi) p).2 : Multiset TaggedFile) =
              ((fileTags cs p : List TaggedFile) : Multiset TaggedFile) :=
            Multiset.coe_eq_coe.mpr hgs
          have em2 : ((ds.flatMap (fun c => specFiles (gchildren c) (joinPath p (gname c)))
                : List TaggedFile) : Multiset TaggedFile) =
              (((subFolders cs).flatMap
                  (fun c => specFiles (gchildren c) (joinPath p (gname c)))
                : List TaggedFile) : Multiset TaggedFile) :=
            Multiset.coe_eq_coe.mpr (hds.flatMap_right _)
          have em3 : ((specFiles cs p : List TaggedFile) : Multiset TaggedFile) =
              ((fileTags cs p : List TaggedFile) : Multiset TaggedFile) +
              (((subFolders cs).flatMap
                  (fun c => specFiles (gchildren c) (joinPath p (gname c)))
                : List TaggedFile) : Multiset TaggedFile) := by
            rw [Multiset.coe_add]
            exact Multiset.coe_eq_coe.mpr (specFiles_decomp cs p)
          simp only [List.flatMap_append, List.flatMap_cons, List.flatMap_map, hgchild,
            ← Multiset.coe_add]
          rw [em1, em3]
          rw [show (fun c => specFiles (gchildren ((c, joinPath p (gname c)) : GTree × String).1)
              ((c, joinPath p (gname c)) : GTree × String).2) =
              (fun c => specFiles (gchildren c) (joinPath p (gname c))) from rfl] at *
          rw [em2]
          simp [add_comm, add_left_comm, add_assoc]

/-- `list_files_recursive` on the root of a folder tree returns, up to
order, exactly the recursive-descent file records of the tree. -/
theorem list_files_recursive_spec (svc : Service) (rid rname : String) (cs : List GTree)
    (fuel : Nat) (hw : wfForest [GTree.folder rid rname cs] = true)
    (hco : Coherent svc [GTree.folder rid rname cs])
    (hfuel : 1 + folderCountF cs ≤ fuel) :
    (list_files_recursive svc fuel rid "").Perm (specFiles cs "") := by
  have h := listAux_spec svc [GTree.folder rid rname cs] hco hw fuel
    [(GTree.folder rid rname cs, "")] [] ?_ ?_
  · simpa [list_files_recursive, gid, gchildren] using h
  · intro e he
    simp only [List.mem_singleton] at he
    subst he
    simp [folderNodesF]
  · simp only [List.map_cons, List.map_nil, folderCountF]
    omega

/-! ### Claim C3: a failing folder listing -/

/-- Service for the C3 counterexample: folder `r`'s first page succeeds
with one plain-text file, its second page fetch raises. -/
def svcMidFail : Service := fun f =>
  if f = "r" then [Except.ok [⟨"a", "A", "text/plain"⟩], Except.error ()] else []

/-- Claim C3 counterexample: the claim says a folder whose listing call
fails on ANY page contributes zero files.  Here folder `r`'s listing
fails on its second page, yet `r` contributes the file delivered by its
first page, so the result is not empty. -/
theorem C3_counterexample :
    svcMidFail "r" = [Except.ok [⟨"a", "A", "text/plain"⟩], Except.error ()] ∧
    list_files_recursive svcMidFail 2 "r" "" =
      [{ id := "a", name := "A", mimeType := "text/plain", path := "" }] :=
  ⟨rfl, rfl⟩

/-- Claim C3 (amended): if the listing of a queued folder fails on its
FIRST page, that folder contributes zero files and zero sub-folders:
the traversal state after processing it is exactly the state obtained
by dropping it, so the remaining queued folders (the siblings) are
still processed and their files still returned. -/
theorem C3_first_page_failure (svc : Service) (f p : String) (e : Unit)
    (rest : List PageResult) (q : List (String × String)) (acc : List TaggedFile)
    (fuel : Nat) (h : svc f = Except.error e :: rest) :
    listAux svc (fuel + 1) ((f, p) :: q) acc = listAux svc fuel q acc := by
  rw [listAux_cons, h]
  simp [processPages]

/-- Service for the C3 witness: folder `x` raises on its first page,
folder `y` has one file. -/
def svcFirstFail : Service := fun f =>
  if f = "x" then [Except.error ()]
  else if f = "y" then [Except.ok [⟨"b", "B", "text/csv"⟩]]
  else []

/-- Claim C3 witness: concrete instance of `C3_first_page_failure` —
the failing folder `x` is dropped and its sibling `y` still contributes
its file. -/
theorem C3_witness :
    listAux svcFirstFail 2 [("x", ""), ("y", "")] [] =
      listAux svcFirstFail 1 [("y", "")] [] :=
  C3_first_page_failure svcFirstFail "x" "" () [] [("y", "")] [] 1 rfl

/-! ### Claim C4: the lister's contract -/

/-- Service for the C4 counterexample: the root folder contains one
shortcut item. -/
def svcShortcutTree : Service := fun f =>
  if f = "r" then [Except.ok [⟨"s", "sc", shortcutMime⟩]] else []

/-- Claim C4 counterexample: the claim says the lister returns exactly
the non-folder, NON-SHORTCUT records.  On a root containing a single
shortcut, the lister returns the shortcut record: `list_files_recursive`
only special-cases the folder MIME type, and shortcut filtering happens
later, in `load_documents_from_gdrive`. -/
theorem C4_counterexample :
    list_files_recursive svcShortcutTree 2 "r" "" =
      [{ id := "s", name := "sc", mimeType := shortcutMime, path := "" }] := rfl

/-- Claim C4 (amended): for every folder tree with all listing calls
succeeding, the lister returns exactly the non-folder file records
(shortcut records included — shortcuts are only filtered out by a later
stage) reachable from the root by recursive descent, each tagged with
the slash-joined folder path relative to the root; pages are consumed
until the token chain ends, and the returned multiset is invariant to
how each folder's children are split across pages and to the order the
pages deliver them in. -/
theorem C4_lister_descent (svc svc' : Service) (rid rname : String)
    (cs : List GTree) (fuel fuel' : Nat)
    (hw : wfForest [GTree.folder rid rname cs] = true)
    (hco : Coherent svc [GTree.folder rid rname cs])
    (hco' : Coherent svc' [GTree.folder rid rname cs])
    (hfuel : 1 + folderCountF cs ≤ fuel) (hfuel' : 1 + folderCountF cs ≤ fuel') :
    (list_files_recursive svc fuel rid "").Perm (specFiles cs "") ∧
    (list_files_recursive svc fuel rid "").Perm (list_files_recursive svc' fuel' rid "") := by
  have h1 := list_files_recursive_spec svc rid rname cs fuel hw hco hfuel
  have h2 := list_files_recursive_spec svc' rid rname cs fuel' hw hco' hfuel'
  exact ⟨h1, h1.trans h2.symm⟩

/-- Children of the C4 witness root: a plain-text file and a sub-folder
holding a PDF. -/
def csW : List GTree :=
  [GTree.file "a" "A" "text/plain",
   GTree.folder "d" "D" [GTree.file "b" "B" "application/pdf"]]

/-- Witness service: one page per folder, children in order. -/
def svcW : Service := fun f =>
  if f = "r" then [Except.ok [⟨"a", "A", "text/plain"⟩, ⟨"d", "D", folderMime⟩]]
  else if f = "d" then [Except.ok [⟨"b", "B", "application/pdf"⟩]]
  else []

/-- Witness service with a different pagination: the root's children
arrive on two pages in the opposite order, and folder `d` delivers an
empty first page. -/
def svcW2 : Service := fun f =>
  if f = "r" then [Except.ok [⟨"d", "D", folderMime⟩], Except.ok [⟨"a", "A", "text/plain"⟩]]
  else if f = "d" then [Except.ok [], Except.ok [⟨"b", "B", "application/pdf"⟩]]
  else []

/-- Claim C4 witness: `C4_lister_descent` applied to the concrete tree
`csW` and the two pagination services. -/
theorem C4_witness :
    (list_files_recursive svcW 3 "r" "").Perm (specFiles csW "") ∧
    (list_files_recursive svcW 3 "r" "").Perm (list_files_recursive svcW2 4 "r" "") := by
  refine C4_lister_descent svcW svcW2 "r" "R" csW 3 4
    (by simp [wfForest, csW, folderMime]) ?_ ?_
    (by simp [folderCountF, csW]) (by simp [folderCountF, csW])
  · intro g hg
    simp only [csW, folderNodesF, List.mem_cons, List.mem_append,
      List.not_mem_nil, or_false] at hg
    rcases hg with rfl | rfl
    · exact ⟨_, rfl, by decide⟩
    · exact ⟨_, rfl, by decide⟩
  · intro g hg
    simp only [csW, folderNodesF, List.mem_cons, List.mem_append,
      List.not_mem_nil, or_false] at hg
    rcases hg with rfl | rfl
    · exact ⟨_, rfl, by decide⟩
    · exact ⟨_, rfl, by decide⟩

/-! ### Claim C5: the chunker -/

/-- Modelled from the spec: the chunker itself (`SentenceSplitter`,
configured in `create_and_run_pipeline` with `chunk_size=1024`,
`chunk_overlap=200`) lives in the llama_index library, not in this
repository.  Following the spec's description, a document of `L` tokens
is cut into windows of 1024 tokens whose starts advance by
`1024 - 200 = 824` tokens; once the remainder fits in one window, that
remainder is the final chunk.  Spans are `(start, length)` pairs; the
fuel argument bounds the number of chunks (any `fuel ≥ L ≥ 1`
suffices). -/
def splitAux (L : Nat) : Nat → Nat → List (Nat × Nat)
  | 0, _ => []
  | fuel + 1, s =>
      if L ≤ s + 1024 then [(s, L - s)]
      else (s, 1024) :: splitAux L fuel (s + 824)

/-- Modelled from the spec: the chunk spans of a document of `L`
tokens. -/
def chunkSpans (L : Nat) : List (Nat × Nat) :=
  if L = 0 then [] else splitAux L L 0

/-- Closed form of `splitAux`: with enough fuel, the spans are the
`(L - s - 201) / 824` full windows followed by the remainder window. -/
theorem splitAux_closed (L : Nat) : ∀ (fuel s : Nat), L ≤ s + 824 * fuel + 1024 →
    splitAux L (fuel + 1) s =
      (List.range ((L - s - 201) / 824)).map (fun j => (s + 824 * j, 1024)) ++
        [(s + 824 * ((L - s - 201) / 824), L - (s + 824 * ((L - s - 201) / 824)))] := by
  intro fuel
  induction fuel with
  | zero =>
      intro s hs
      have hk : (L - s - 201) / 824 = 0 := Nat.div_eq_of_lt (by omega)
      simp [splitAux, hk, show L ≤ s + 1024 by omega]
  | succ n ihn =>
      intro s hs
      by_cases h : L ≤ s + 1024
      · have hk : (L - s - 201) / 824 = 0 := Nat.div_eq_of_lt (by omega)
        simp [splitAux, hk, h]
      · have hk : (L - s - 201) / 824 = (L - (s + 824) - 201) / 824 + 1 := by
          have h1 : L - s - 201 = (L - (s + 824) - 201) + 824 := by omega
          rw [h1, Nat.add_div_right _ (by norm_num)]
        have hstep : splitAux L (n + 1 + 1) s = (s, 1024) :: splitAux L (n + 1) (s + 824) := by
          simp [splitAux, h]
        rw [hstep, ihn (s + 824) (by omega), hk]
        rw [List.range_succ_eq_map, List.map_cons, List.map_map, List.cons_append]
        have e2 : ∀ j ∈ List.range ((L - (s + 824) - 201) / 824),
            ((fun j => (s + 824 * j, (1024 : Nat))) ∘ Nat.succ) j =
              (s + 824 + 824 * j, (1024 : Nat)) := by
          intro j _
          simp only [Function.comp_apply, Prod.mk.injEq, and_true]
          omega
        rw [List.map_congr_left e2]
        have e3 : s + 824 * 0 = s := by omega
        have e4 : s + 824 * ((L - (s + 824) - 201) / 824 + 1) =
            s + 824 + 824 * ((L - (s + 824) - 201) / 824) := by omega
        rw [e3, e4]

/-- Closed form of `chunkSpans` for a non-empty document. -/
theorem chunkSpans_closed (L : Nat) (hL : L ≠ 0) :
    chunkSpans L =
      (List.range ((L - 201) / 824)).map (fun j => (824 * j, 1024)) ++
        [(824 * ((L - 201) / 824), L - 824 * ((L - 201) / 824))] := by
  rw [chunkSpans, if_neg hL]
  obtain ⟨f, hf⟩ : ∃ f, L = f + 1 := ⟨L - 1, by omega⟩
  have h := splitAux_closed L f 0 (by omega)
  rw [← hf] at h
  simpa using h

/-- Claim C5: splitting a non-empty document of `L` tokens with chunk
size 1024 and overlap 200: every chunk except the last is exactly 1024
tokens long, every chunk's start offset is 824 tokens after its
predecessor's (chunk `i` starts at `824 * i`), and the last chunk has
length `L - 824 * (number of full chunks)`, which is at most 1024 and
positive. -/
theorem C5_chunk_lengths (L : Nat) (hL : 0 < L) :
    chunkSpans L ≠ [] ∧
    (∀ i (hi : i < (chunkSpans L).length),
      ((chunkSpans L).get ⟨i, hi⟩).1 = 824 * i) ∧
    (∀ i (hi : i < (chunkSpans L).length - 1),
      ((chunkSpans L).get ⟨i, Nat.lt_of_lt_of_le hi (Nat.sub_le _ _)⟩).2 = 1024) ∧
    (∃ last, (chunkSpans L).getLast? = some last ∧
      last.2 = L - 824 * ((chunkSpans L).length - 1) ∧
      last.2 ≤ 1024 ∧ 0 < last.2) := by
  have hL' : L ≠ 0 := Nat.pos_iff_ne_zero.mp hL
  have hcs := chunkSpans_closed L hL'
  set k := (L - 201) / 824 with hkdef
  have hdm := Nat.div_add_mod (L - 201) 824
  have hmod : (L - 201) % 824 < 824 := Nat.mod_lt _ (by norm_num)
  have hm1 : 824 * k ≤ L - 201 := by omega
  have hm2 : L - 201 < 824 * k + 824 := by omega
  have hlen : (chunkSpans L).length = k + 1 := by
    rw [hcs]; simp
  have key : ∀ i (hi : i < (chunkSpans L).length),
      (chunkSpans L).get ⟨i, hi⟩ =
        if i < k then (824 * i, 1024) else (824 * k, L - 824 * k) := by
    intro i hi
    rw [hlen] at hi
    by_cases h : i < k
    · rw [if_pos h]
      simp only [hcs, List.get_eq_getElem]
      rw [List.getElem_append_left (by simpa using h)]
      simp
    · rw [if_neg h]
      have hik : i = k := by omega
      subst hik
      simp only [hcs, List.get_eq_getElem]
      rw [List.getElem_append_right (by simp)]
      simp
  refine ⟨?_, ?_, ?_, ?_⟩
  · rw [hcs]; simp
  · intro i hi
    rw [key i hi]
    by_cases h : i < k
    · rw [if_pos h]
    · rw [if_neg h]
      have : i = k := by
        have := hi
        rw [hlen] at this
        omega
      omega
  · intro i hi
    have hik : i < k := by
      have := hi
      rw [hlen] at this
      omega
    rw [key i (Nat.lt_of_lt_of_le hi (Nat.sub_le _ _)), if_pos hik]
  · refine ⟨(824 * k, L - 824 * k), ?_, ?_, ?_, ?_⟩
    · rw [hcs]
      rw [List.getLast?_concat]
    · rw [hlen]; simp
    · simp only []
      omega
    · simp only []
      omega

/-- Claim C5 witness: the chunk-shape theorem applied to a document of
2000 tokens. -/
theorem C5_witness :
    0 < 2000 ∧
    (chunkSpans 2000 ≠ [] ∧
    (∀ i (hi : i < (chunkSpans 2000).length),
      ((chunkSpans 2000).get ⟨i, hi⟩).1 = 824 * i) ∧
    (∀ i (hi : i < (chunkSpans 2000).length - 1),
      ((chunkSpans 2000).get ⟨i, Nat.lt_of_lt_of_le hi (Nat.sub_le _ _)⟩).2 = 1024) ∧
    (∃ last, (chunkSpans 2000).getLast? = some last ∧
      last.2 = 2000 - 824 * ((chunkSpans 2000).length - 1) ∧
      last.2 ≤ 1024 ∧ 0 < last.2)) :=
  ⟨by decide, C5_chunk_lengths 2000 (by decide)⟩

/-! ### Association lists: Python dicts and the vector index

Python `dict` values (document metadata, and the vector index itself,
which is keyed by entry id) are modelled as association lists with
first-match lookup and insert-or-overwrite assignment. -/

section AssocList

variable {κ ν : Type} [DecidableEq κ]

/-- First-match lookup, `d.get(k)`. -/
def getVal : List (κ × ν) → κ → Option ν
  | [], _ => none
  | (k', v) :: rest, k => if k' = k then some v else getVal rest k

/-- `d[k] = v`: overwrite the entry if the key is present, append a new
entry otherwise.  This is also the vector store's upsert, which is
keyed by entry id. -/
def setKey (m : List (κ × ν)) (k : κ) (v : ν) : List (κ × ν) :=
  if (getVal m k).isSome then m.map (fun p => if p.1 = k then (k, v) else p)
  else m ++ [(k, v)]

/-- `d.update(other)` / upserting a batch of entries in order. -/
def updateAll (m : List (κ × ν)) (entries : List (κ × ν)) : List (κ × ν) :=
  entries.foldl (fun acc kv => setKey acc kv.1 kv.2) m

theorem getVal_none_iff (m : List (κ × ν)) (k : κ) :
    getVal m k = none ↔ k ∉ m.map Prod.fst := by
  induction m with
  | nil => simp [getVal]
  | cons p rest ih =>
      obtain ⟨k', v⟩ := p
      simp only [getVal, List.map_cons, List.mem_cons]
      by_cases h : k' = k
      · subst h
        simp
      · rw [if_neg h]
        simp [ih, Ne.symm h]

theorem getVal_map_replace : ∀ (m : List (κ × ν)) (k : κ) (v : ν),
    (getVal m k).isSome = true →
    getVal (m.map (fun p => if p.1 = k then (k, v) else p)) k = some v
  | [], k, v, h => by simp [getVal] at h
  | (k', w) :: rest, k, v, h => by
      simp only [List.map_cons]
      by_cases hk : k' = k
      · rw [if_pos (show ((k', w) : κ × ν).1 = k from hk)]
        simp [getVal]
      · rw [if_neg (show ¬((k', w) : κ × ν).1 = k from hk)]
        have h' : (getVal rest k).isSome = true := by
          simpa [getVal, hk] using h
        simp only [getVal]
        rw [if_neg hk]
        exact getVal_map_replace rest k v h'

theorem getVal_map_replace_ne : ∀ (m : List (κ × ν)) (k k' : κ) (v : ν), k' ≠ k →
    getVal (m.map (fun p => if p.1 = k then (k, v) else p)) k' = getVal m k'
  | [], _, _, _, _ => rfl
  | (k'', w) :: rest, k, k', v, h => by
      simp only [List.map_cons]
      by_cases hk : k'' = k
      · rw [if_pos (show ((k'', w) : κ × ν).1 = k from hk)]
        have hne : ¬k'' = k' := by rw [hk]; exact Ne.symm h
        simp only [getVal]
        rw [if_neg (Ne.symm h), if_neg hne]
        exact getVal_map_replace_ne rest k k' v h
      · rw [if_neg (show ¬((k'', w) : κ × ν).1 = k from hk)]
        simp only [getVal]
        by_cases hk' : k'' = k'
        · rw [if_pos hk', if_pos hk']
        · rw [if_neg hk', if_neg hk']
          exact getVal_map_replace_ne rest k k' v h

theorem getVal_append_last (m : List (κ × ν)) (k : κ) (v : ν) (h : getVal m k = none) :
    getVal (m ++ [(k, v)]) k = some v := by
  induction m with
  | nil => simp [getVal]
  | cons p rest ih =>
      obtain ⟨k', w⟩ := p
      by_cases hk : k' = k
      · simp [getVal, hk] at h
      · have h' : getVal rest k = none := by simpa [getVal, hk] using h
        simp only [List.cons_append, getVal]
        rw [if_neg hk]
        exact ih h'

theorem getVal_append_ne (m : List (κ × ν)) (k k' : κ) (v : ν) (h : k' ≠ k) :
    getVal (m ++ [(k, v)]) k' = getVal m k' := by
  induction m with
  | nil => simp [getVal, Ne.symm h]
  | cons p rest ih =>
      obtain ⟨k'', w⟩ := p
      simp only [List.cons_append, getVal]
      by_cases hk' : k'' = k'
      · rw [if_pos hk', if_pos hk']
      · rw [if_neg hk', if_neg hk']
        exact ih

theorem getVal_setKey_self (m : List (κ × ν)) (k : κ) (v : ν) :
    getVal (setKey m k v) k = some v := by
  unfold setKey
  by_cases h : (getVal m k).isSome
  · rw [if_pos h]
    exact getVal_map_replace m k v h
  · rw [if_neg h]
    apply getVal_append_last
    cases hg : getVal m k with
    | none => rfl
    | some w => rw [hg] at h; simp at h

theorem getVal_setKey_ne (m : List (κ × ν)) (k k' : κ) (v : ν) (h : k' ≠ k) :
    getVal (setKey m k v) k' = getVal m k' := by
  unfold setKey
  by_cases hs : (getVal m k).isSome
  · rw [if_pos hs]
    exact getVal_map_replace_ne m k k' v h
  · rw [if_neg hs]
    exact getVal_append_ne m k k' v h

theorem getVal_updateAll_notMem (entries : List (κ × ν)) :
    ∀ (m : List (κ × ν)) (k : κ), k ∉ entries.map Prod.fst →
      getVal (updateAll m entries) k = getVal m k := by
  induction entries with
  | nil => intro m k _; rfl
  | cons e rest ih =>
      intro m k h
      obtain ⟨k1, v1⟩ := e
      simp only [List.map_cons, List.mem_cons] at h
      push_neg at h
      show getVal (updateAll (setKey m k1 v1) rest) k = getVal m k
      rw [ih _ _ h.2, getVal_setKey_ne _ _ _ _ h.1]

theorem getVal_updateAll_mem (entries : List (κ × ν)) :
    ∀ (m : List (κ × ν)) (k : κ) (v : ν),
      (entries.map Prod.fst).Nodup → (k, v) ∈ entries →
      getVal (updateAll m entries) k = some v := by
  induction entries with
  | nil => intro m k v _ h; simp at h
  | cons e rest ih =>
      intro m k v hnd h
      obtain ⟨k1, v1⟩ := e
      simp only [List.map_cons, List.nodup_cons] at hnd
      show getVal (updateAll (setKey m k1 v1) rest) k = some v
      rcases List.mem_cons.mp h with heq | hmem
      · cases heq
        rw [getVal_updateAll_notMem rest _ _ hnd.1]
        exact getVal_setKey_self _ _ _
      · exact ih _ _ _ hnd.2 hmem

end AssocList

/-! ### MIME type tables of `ingest.py` -/

/-- `SUPPORTED_MIME_TYPES`: native files (downloaded directly), with
the extension recorded for each type. -/
def SUPPORTED_MIME_TYPES : List (String × String) :=
  [("application/pdf", ".pdf"),
   ("application/vnd.openxmlformats-officedocument.wordprocessingml.document", ".docx"),
   ("application/msword", ".doc"),
   ("application/vnd.openxmlformats-officedocument.spreadsheetml.sheet", ".xlsx"),
   ("application/vnd.ms-excel", ".xls"),
   ("application/vnd.openxmlformats-officedocument.presentationml.presentation", ".pptx"),
   ("application/vnd.ms-powerpoint", ".ppt"),
   ("text/plain", ".txt"),
   ("text/csv", ".csv")]

/-- `GOOGLE_EXPORT_TYPES`: Google-native types that need export, with
the export MIME type and the extension appended to the local name. -/
def GOOGLE_EXPORT_TYPES : List (String × String × String) :=
  [("application/vnd.google-apps.document", ("text/plain", ".txt")),
   ("application/vnd.google-apps.spreadsheet", ("text/csv", ".csv")),
   ("application/vnd.google-apps.presentation", ("text/plain", ".txt"))]

/-- `SKIP_MIME_TYPES`: types skipped before download. -/
def SKIP_MIME_TYPES : List String :=
  ["application/vnd.google-apps.folder",
   "application/vnd.google-apps.shortcut",
   "application/vnd.google-apps.form",
   "image/jpeg", "image/png", "image/gif", "image/webp", "image/svg+xml",
   "video/mp4", "video/quicktime", "video/x-msvideo",
   "audio/mpeg", "audio/wav",
   "application/zip", "application/x-zip"]

/-! ### The file materializer (`download_file`) -/

/-- The local file name `download_file` materializes a remote file
under: an export-class file gets `f"{file_name}{extension}"` with the
export format's extension; a directly downloadable file gets
`f"{file_name}"` — the `extension` looked up from
`SUPPORTED_MIME_TYPES` on that branch is never appended; any other type
yields no artifact (`return None`). -/
def local_file_name (mimeType fileName : String) : Option String :=
  match getVal GOOGLE_EXPORT_TYPES mimeType with
  | some (_, extension) => some (fileName ++ extension)
  | none =>
      match getVal SUPPORTED_MIME_TYPES mimeType with
      | some _ => some fileName
      | none => none

/-! ### Documents and the loader -/

/-- A llama_index `Document`: text plus a metadata dict. -/
structure Doc where
  text : String
  metadata : List (String × String)
deriving DecidableEq, Repr

/-- Oracles for the external effects of one ingestion run: which
required environment variables are missing, whether the credentials
file exists, the Drive listing service (with a fuel bound for the
traversal loop), the network outcome of each file's download/export,
the `SimpleDirectoryReader` outcome for each local artifact, and which
pipeline batches raise. -/
structure Env where
  missing_vars : List String
  creds_exists : Bool
  svc : Service
  folder_id : String
  listFuel : Nat
  fetch : String → Option Unit
  reader : String → Except String (List Doc)
  batch_fails : Nat → Bool

/-- `download_file`: pick the export or direct-download branch and the
local file name, then run the chunked download; any raised error
(export size limit, not-downloadable, transient) yields `None` and the
file is skipped. -/
def download_file (env : Env) (f : TaggedFile) : Option String :=
  match local_file_name f.mimeType f.name with
  | none => none
  | some fname =>
      match env.fetch f.id with
      | some _ => some fname
      | none => none

/-- `load_document_from_file`: run the multi-format reader on the
artifact (`readerResult` is its outcome, an exception or a document
list), attach the supplied metadata to every produced document, and
return `None` when the reader raises or produces nothing. -/
def load_document_from_file (readerResult : Except String (List Doc))
    (metadata : List (String × String)) : Option (List Doc) :=
  match readerResult with
  | Except.error _ => none
  | Except.ok docs =>
      if docs.isEmpty then none
      else some (docs.map (fun d => { d with metadata := updateAll d.metadata metadata }))

/-- The metadata dict built for one file in `load_documents_from_gdrive`. -/
def metaOf (f : TaggedFile) : List (String × String) :=
  [("file_name", f.name), ("file_path", f.path), ("source", "gdrive:" ++ f.id)]

/-- The supported-file filter of `load_documents_from_gdrive`: skip
types are dropped, supported and export types are kept, unknown types
are dropped (and counted as skipped). -/
def supported_files (all : List TaggedFile) : List TaggedFile :=
  all.filter (fun f =>
    !SKIP_MIME_TYPES.contains f.mimeType &&
      ((getVal SUPPORTED_MIME_TYPES f.mimeType).isSome ||
       (getVal GOOGLE_EXPORT_TYPES f.mimeType).isSome))

/-- Materialize-then-extract for one file: `None` when the download
fails or the extraction fails or yields nothing. -/
def processFile (env : Env) (f : TaggedFile) : Option (List Doc) :=
  match download_file env f with
  | none => none
  | some path => load_document_from_file (env.reader path) (metaOf f)

/-- Result accumulators of the download loop of
`load_documents_from_gdrive`. -/
structure LoadResult where
  documents : List Doc
  success_count : Nat
  error_count : Nat
deriving DecidableEq, Repr

/-- The download-and-process loop of `load_documents_from_gdrive`:
each file is downloaded and extracted; a success extends `documents`
and bumps `success_count`, any failure bumps `error_count` and the loop
continues with the next file. -/
def load_loop (env : Env) : List TaggedFile → LoadResult
  | [] => ⟨[], 0, 0⟩
  | f :: rest =>
      let r := load_loop env rest
      match processFile env f with
      | some ds => ⟨ds ++ r.documents, r.success_count + 1, r.error_count⟩
      | none => ⟨r.documents, r.success_count, r.error_count + 1⟩

/-- All files discovered by the recursive listing. -/
def all_files (env : Env) : List TaggedFile :=
  list_files_recursive env.svc env.listFuel env.folder_id ""

/-- `load_documents_from_gdrive`: list, filter to supported types, then
download and extract each file. -/
def load_documents (env : Env) : LoadResult :=
  load_loop env (supported_files (all_files env))

/-! ### Temporary-artifact lifecycle (claim C9) -/

/-- The temp-directory trace of the download loop: starting from state
`st` (the set of artifacts currently on disk), record the directory
contents after each download and again after the per-file cleanup
(`os.remove` runs after `load_document_from_file` has been attempted,
whatever its outcome).  Returns the observed states and the final
state. -/
def tempLoop (env : Env) : List String → List TaggedFile → List (List String) × List String
  | st, [] => ([], st)
  | st, f :: rest =>
      match download_file env f with
      | none =>
          let r := tempLoop env st rest
          (st :: r.1, r.2)
      | some path =>
          let r := tempLoop env ((st ++ [path]).erase path) rest
          ((st ++ [path]) :: (st ++ [path]).erase path :: r.1, r.2)

/-! ### The batch pipeline and `main` -/

/-- The fixed-size document batches of `create_and_run_pipeline`
(`batch_size = 50`). -/
def batchesOf : List Doc → List (List Doc)
  | [] => []
  | d :: rest => ((d :: rest).take 50) :: batchesOf ((d :: rest).drop 50)
termination_by l => l.length
decreasing_by simp; omega

/-- Number of chunks the splitter yields for one document. -/
def docChunks (d : Doc) : Nat := (chunkSpans d.text.length).length

/-- `create_and_run_pipeline`: process the documents in batches of 50;
a failing batch is caught, logged, and contributes no nodes; the total
node count over the successful batches is returned. -/
def create_and_run_pipeline (env : Env) (docs : List Doc) : Nat :=
  ((batchesOf docs).enum.map (fun p =>
      if env.batch_fails p.1 then 0 else (p.2.map docChunks).sum)).sum

/-- The three terminal outcomes of `main`: the `except Exception`
handler (prints `[ERROR]`, `sys.exit(1)`), the no-documents branch
(prints `[WARN] No documents could be loaded.`, `sys.exit(1)`), and
normal completion (implicit exit 0). -/
inductive MainOutcome where
  | errorExit (msg : String) : MainOutcome
  | noDocsExit : MainOutcome
  | success (chunks : Nat) : MainOutcome
deriving DecidableEq, Repr

/-- Process exit code of an outcome. -/
def exitCode : MainOutcome → Nat
  | .errorExit _ => 1
  | .noDocsExit => 1
  | .success _ => 0

/-- Chunks upserted under an outcome. -/
def chunksUpserted : MainOutcome → Nat
  | .success n => n
  | _ => 0

/-- `main`: validate configuration (missing environment variables and a
missing credentials file raise, caught by the `except Exception`
handler which exits 1), load the documents, exit 1 if none loaded, else
run the pipeline and complete normally. -/
def main (env : Env) : MainOutcome :=
  if env.missing_vars ≠ [] then
    MainOutcome.errorExit "Missing required environment variables"
  else if ¬env.creds_exists then
    MainOutcome.errorExit "Google credentials file not found"
  else
    let res := load_documents env
    if res.documents.isEmpty then MainOutcome.noDocsExit
    else MainOutcome.success (create_and_run_pipeline env res.documents)

/-! ### The vector index and the chunk-embed-upsert stage (claim C2) -/

/-- Modelled from the spec: the chunk/embed/upsert stage is delegated
to llama_index's `IngestionPipeline` writing to Pinecone; the spec
states that an index entry's id is derived deterministically from chunk
identity, so an id is modelled as the pair (document position, chunk
sequence number), and the entry carries its chunk span and parent
document. -/
def entriesOf (docs : List Doc) : List ((Nat × Nat) × (Doc × (Nat × Nat))) :=
  docs.enum.flatMap (fun p =>
    (chunkSpans p.2.text.length).enum.map (fun q => ((p.1, q.1), (p.2, q.2))))

/-- Modelled from the spec: one run of the chunk-embed-upsert stage
over a document set, against a vector index keyed by entry id —
`upsert` is insert-or-overwrite by id. -/
def runStage (docs : List Doc) (idx : List ((Nat × Nat) × (Doc × (Nat × Nat)))) :
    List ((Nat × Nat) × (Doc × (Nat × Nat))) :=
  updateAll idx (entriesOf docs)




/-! ### Claim C10: local file names -/

/-- Claim C10: a directly-downloadable file's local name is exactly the
remote display name — the extension recorded for its type in
`SUPPORTED_MIME_TYPES` is looked up but never appended — while an
export-class file's local name is the display name plus the export
format's extension. -/
theorem C10_local_names (name : String) :
    (∀ p ∈ SUPPORTED_MIME_TYPES, local_file_name p.1 name = some name) ∧
    (∀ t ∈ GOOGLE_EXPORT_TYPES, local_file_name t.1 name = some (name ++ t.2.2)) := by
  constructor
  · intro p hp
    simp only [SUPPORTED_MIME_TYPES, List.mem_cons, List.not_mem_nil, or_false] at hp
    rcases hp with rfl | rfl | rfl | rfl | rfl | rfl | rfl | rfl | rfl <;> rfl
  · intro t ht
    simp only [GOOGLE_EXPORT_TYPES, List.mem_cons, List.not_mem_nil, or_false] at ht
    rcases ht with rfl | rfl | rfl <;> rfl

/-- Claim C10 witness: a PDF keeps its bare display name, a Google Doc
gets the plain-text export extension. -/
theorem C10_witness :
    local_file_name "application/pdf" "report" = some "report" ∧
    local_file_name "application/vnd.google-apps.document" "notes" =
      some ("notes" ++ ".txt") := by
  constructor
  · exact (C10_local_names "report").1 ("application/pdf", ".pdf")
      (by simp [SUPPORTED_MIME_TYPES])
  · exact (C10_local_names "notes").2
      ("application/vnd.google-apps.document", ("text/plain", ".txt"))
      (by simp [GOOGLE_EXPORT_TYPES])

/-! ### Claim C7: a failing download skips one file -/

/-- Characterization of the download loop: the counters count exactly
the per-file outcomes, and the documents are the successful files'
documents in file order. -/
theorem load_loop_char (env : Env) (fs : List TaggedFile) :
    load_loop env fs =
      ⟨fs.flatMap (fun f => (processFile env f).getD []),
       (fs.filter (fun f => (processFile env f).isSome)).length,
       (fs.filter (fun f => (processFile env f).isNone)).length⟩ := by
  induction fs with
  | nil => rfl
  | cons f rest ih =>
      simp only [load_loop, ih]
      cases h : processFile env f with
      | none => simp [h, List.filter_cons]
      | some ds => simp [h, List.filter_cons]

/-- Claim C7: a failing download or export of a single file only skips
that file: the loop over `pre ++ f :: post` yields the same documents
and success count as over `pre ++ post` with one more counted error,
and the loop is a total function, so nothing is raised. -/
theorem C7_single_file_failure (env : Env) (pre post : List TaggedFile)
    (f : TaggedFile) (h : download_file env f = none) :
    (load_loop env (pre ++ f :: post)).documents =
        (load_loop env (pre ++ post)).documents ∧
    (load_loop env (pre ++ f :: post)).success_count =
        (load_loop env (pre ++ post)).success_count ∧
    (load_loop env (pre ++ f :: post)).error_count =
        (load_loop env (pre ++ post)).error_count + 1 := by
  have hp : processFile env f = none := by simp [processFile, h]
  refine ⟨?_, ?_, ?_⟩ <;>
    simp [load_loop_char, List.filter_append, List.flatMap_append,
      List.filter_cons, hp] <;> omega

/-- Environment for the C7 witness: file id `bad` fails to download,
everything else succeeds and parses into one document. -/
def envC7 : Env :=
  { missing_vars := []
    creds_exists := true
    svc := fun _ => []
    folder_id := "root"
    listFuel := 1
    fetch := fun id => if id = "bad" then none else some ()
    reader := fun _ => Except.ok [{ text := "body", metadata := [] }]
    batch_fails := fun _ => false }

/-- Claim C7 witness: `C7_single_file_failure` on a concrete run where
the middle file's download fails. -/
theorem C7_witness :
    (load_loop envC7 [⟨"1", "a.pdf", "application/pdf", ""⟩,
        ⟨"bad", "b.pdf", "application/pdf", ""⟩,
        ⟨"2", "c.txt", "text/plain", ""⟩]).documents =
      (load_loop envC7 [⟨"1", "a.pdf", "application/pdf", ""⟩,
        ⟨"2", "c.txt", "text/plain", ""⟩]).documents ∧
    (load_loop envC7 [⟨"1", "a.pdf", "application/pdf", ""⟩,
        ⟨"bad", "b.pdf", "application/pdf", ""⟩,
        ⟨"2", "c.txt", "text/plain", ""⟩]).success_count =
      (load_loop envC7 [⟨"1", "a.pdf", "application/pdf", ""⟩,
        ⟨"2", "c.txt", "text/plain", ""⟩]).success_count ∧
    (load_loop envC7 [⟨"1", "a.pdf", "application/pdf", ""⟩,
        ⟨"bad", "b.pdf", "application/pdf", ""⟩,
        ⟨"2", "c.txt", "text/plain", ""⟩]).error_count =
      (load_loop envC7 [⟨"1", "a.pdf", "application/pdf", ""⟩,
        ⟨"2", "c.txt", "text/plain", ""⟩]).error_count + 1 :=
  C7_single_file_failure envC7
    [⟨"1", "a.pdf", "application/pdf", ""⟩]
    [⟨"2", "c.txt", "text/plain", ""⟩]
    ⟨"bad", "b.pdf", "application/pdf", ""⟩ rfl


/-! ### Claim C8: the extractor attaches metadata and absorbs failures -/

/-- Claim C8: the extractor attaches the supplied metadata to every
document it produces (every metadata key maps to the supplied value in
every produced document), converts any reader failure into zero
documents instead of propagating it, and consequently a run over files
that all succeed plus one corrupt file ingests all the others and
counts exactly one extraction failure. -/
theorem C8_extractor (env : Env) (rr : Except String (List Doc))
    (meta : List (String × String)) (hnd : (meta.map Prod.fst).Nodup)
    (xs ys : List TaggedFile) (c : TaggedFile) (cpath emsg : String)
    (hok : ∀ f ∈ xs ++ ys, (processFile env f).isSome = true)
    (hcdl : download_file env c = some cpath)
    (hcread : env.reader cpath = Except.error emsg) :
    (∀ e, rr = Except.error e → load_document_from_file rr meta = none) ∧
    (∀ ds, load_document_from_file rr meta = some ds →
      ∀ d ∈ ds, ∀ kv ∈ meta, getVal d.metadata kv.1 = some kv.2) ∧
    (load_loop env (xs ++ c :: ys)).success_count = xs.length + ys.length ∧
    (load_loop env (xs ++ c :: ys)).error_count = 1 := by
  have hcp : processFile env c = none := by
    simp [processFile, hcdl, hcread, load_document_from_file]
  have hxs : xs.filter (fun f => (processFile env f).isSome) = xs :=
    List.filter_eq_self.mpr (fun f hf => hok f (List.mem_append_left _ hf))
  have hys : ys.filter (fun f => (processFile env f).isSome) = ys :=
    List.filter_eq_self.mpr (fun f hf => hok f (List.mem_append_right _ hf))
  have hxs' : xs.filter (fun f => (processFile env f).isNone) = [] := by
    rw [List.filter_eq_nil_iff]
    intro f hf
    have := hok f (List.mem_append_left _ hf)
    obtain ⟨x, hx⟩ := Option.isSome_iff_exists.mp this
    simp [hx]
  have hys' : ys.filter (fun f => (processFile env f).isNone) = [] := by
    rw [List.filter_eq_nil_iff]
    intro f hf
    have := hok f (List.mem_append_right _ hf)
    obtain ⟨x, hx⟩ := Option.isSome_iff_exists.mp this
    simp [hx]
  refine ⟨?_, ?_, ?_, ?_⟩
  · intro e he
    subst he
    rfl
  · intro ds hds d hd kv hkv
    cases rr with
    | error e => simp [load_document_from_file] at hds
    | ok docs =>
        simp only [load_document_from_file] at hds
        by_cases hne : docs.isEmpty
        · rw [if_pos hne] at hds
          exact absurd hds (by simp)
        · rw [if_neg hne] at hds
          obtain rfl : (docs.map (fun d =>
              { d with metadata := updateAll d.metadata meta })) = ds :=
            Option.some.inj hds
          obtain ⟨d0, _, rfl⟩ := List.mem_map.mp hd
          exact getVal_updateAll_mem meta _ kv.1 kv.2 hnd hkv
  · rw [load_loop_char]
    simp [List.filter_append, List.filter_cons, hcp, hxs, hys]
  · rw [load_loop_char]
    simp [List.filter_append, List.filter_cons, hcp, hxs', hys']

/-- Environment for the C8 witness: the artifact `corrupt.pdf` fails to
parse, everything else parses into one document. -/
def envC8 : Env :=
  { missing_vars := []
    creds_exists := true
    svc := fun _ => []
    folder_id := "root"
    listFuel := 1
    fetch := fun _ => some ()
    reader := fun path =>
      if path = "corrupt.pdf" then Except.error "parse failure"
      else Except.ok [{ text := "body", metadata := [] }]
    batch_fails := fun _ => false }

/-- Claim C8 witness: `C8_extractor` on a concrete run of two good
files around one corrupt file, with concrete reader output and
metadata. -/
theorem C8_witness :
    (∀ e, (Except.ok [({ text := "body", metadata := [("old", "0")] } : Doc)] :
        Except String (List Doc)) = Except.error e →
      load_document_from_file (Except.ok [{ text := "body", metadata := [("old", "0")] }])
        [("file_name", "n.pdf")] = none) ∧
    (∀ ds, load_document_from_file
        (Except.ok [({ text := "body", metadata := [("old", "0")] } : Doc)])
        [("file_name", "n.pdf")] = some ds →
      ∀ d ∈ ds, ∀ kv ∈ [("file_name", "n.pdf")], getVal d.metadata kv.1 = some kv.2) ∧
    (load_loop envC8 [⟨"1", "a.pdf", "application/pdf", ""⟩,
        ⟨"9", "corrupt.pdf", "application/pdf", ""⟩,
        ⟨"2", "c.txt", "text/plain", ""⟩]).success_count =
      [(⟨"1", "a.pdf", "application/pdf", ""⟩ : TaggedFile)].length +
        [(⟨"2", "c.txt", "text/plain", ""⟩ : TaggedFile)].length ∧
    (load_loop envC8 [⟨"1", "a.pdf", "application/pdf", ""⟩,
        ⟨"9", "corrupt.pdf", "application/pdf", ""⟩,
        ⟨"2", "c.txt", "text/plain", ""⟩]).error_count = 1 :=
  C8_extractor envC8 (Except.ok [{ text := "body", metadata := [("old", "0")] }])
    [("file_name", "n.pdf")] (by simp)
    [⟨"1", "a.pdf", "application/pdf", ""⟩] [⟨"2", "c.txt", "text/plain", ""⟩]
    ⟨"9", "corrupt.pdf", "application/pdf", ""⟩ "corrupt.pdf" "parse failure"
    (by decide) rfl rfl

/-! ### Claim C9: temporary-artifact lifecycle -/

/-- Invariant of the temp-directory trace from an empty directory:
every observed state holds at most one artifact and the directory is
empty again after the loop. -/
theorem tempLoop_empty_inv (env : Env) : ∀ fs : List TaggedFile,
    (∀ st ∈ (tempLoop env [] fs).1, st.length ≤ 1) ∧ (tempLoop env [] fs).2 = []
  | [] => by simp [tempLoop]
  | f :: rest => by
      have ih := tempLoop_empty_inv env rest
      cases h : download_file env f with
      | none =>
          simp only [tempLoop, h]
          refine ⟨?_, ih.2⟩
          intro st hst
          rcases List.mem_cons.mp hst with rfl | hst
          · simp
          · exact ih.1 st hst
      | some path =>
          have he : (([] : List String) ++ [path]).erase path = [] := by simp
          simp only [tempLoop, h, he]
          refine ⟨?_, ih.2⟩
          intro st hst
          rcases List.mem_cons.mp hst with rfl | hst
          · simp
          · rcases List.mem_cons.mp hst with rfl | hst
            · simp
            · exact ih.1 st hst

/-- The temp-directory trace never consults the reader: deletion
happens after extraction has been attempted, on every extraction
outcome. -/
theorem tempLoop_reader_irrel (env : Env)
    (r1 r2 : String → Except String (List Doc)) : ∀ (st : List String)
    (fs : List TaggedFile),
    tempLoop { env with reader := r1 } st fs = tempLoop { env with reader := r2 } st fs
  | _, [] => rfl
  | st, f :: rest => by
      have hd : download_file { env with reader := r1 } f =
          download_file { env with reader := r2 } f := rfl
      cases h : download_file { env with reader := r2 } f with
      | none =>
          simp only [tempLoop, hd, h]
          rw [tempLoop_reader_irrel env r1 r2 st rest]
      | some path =>
          simp only [tempLoop, hd, h]
          rw [tempLoop_reader_irrel env r1 r2 ((st ++ [path]).erase path) rest]

/-- Claim C9: starting from an empty temporary directory, at most one
materialized artifact exists at any observation point of the run, the
directory is empty again after every file, and the trace is identical
whatever the extraction outcomes are — the artifact is deleted after
extraction has been attempted, on success, failure, and exception
alike. -/
theorem C9_temp_bounded (env : Env) (fs : List TaggedFile) :
    (∀ st ∈ (tempLoop env [] fs).1, st.length ≤ 1) ∧
    (tempLoop env [] fs).2 = [] ∧
    (∀ r1 r2 : String → Except String (List Doc),
      tempLoop { env with reader := r1 } [] fs =
        tempLoop { env with reader := r2 } [] fs) :=
  ⟨(tempLoop_empty_inv env fs).1, (tempLoop_empty_inv env fs).2,
    fun r1 r2 => tempLoop_reader_irrel env r1 r2 [] fs⟩


/-- Claim C9 witness: the temp-lifecycle theorem on a concrete run
with one successful and one failing download. -/
theorem C9_witness :
    (∀ st ∈ (tempLoop envC7 [] [⟨"1", "a.pdf", "application/pdf", ""⟩,
        ⟨"bad", "b.pdf", "application/pdf", ""⟩]).1, st.length ≤ 1) ∧
    (tempLoop envC7 [] [⟨"1", "a.pdf", "application/pdf", ""⟩,
        ⟨"bad", "b.pdf", "application/pdf", ""⟩]).2 = [] ∧
    (∀ r1 r2 : String → Except String (List Doc),
      tempLoop { envC7 with reader := r1 } []
          [⟨"1", "a.pdf", "application/pdf", ""⟩,
           ⟨"bad", "b.pdf", "application/pdf", ""⟩] =
        tempLoop { envC7 with reader := r2 } []
          [⟨"1", "a.pdf", "application/pdf", ""⟩,
           ⟨"bad", "b.pdf", "application/pdf", ""⟩]) :=
  C9_temp_bounded envC7 [⟨"1", "a.pdf", "application/pdf", ""⟩,
    ⟨"bad", "b.pdf", "application/pdf", ""⟩]

/-! ### Claim C1: exit behavior of the run -/

/-- Claim C1: the ingestion run exits 0 exactly when the required
configuration is present (no missing environment variables, credentials
file exists) and at least one document was loaded.  Listing failures,
download failures, extraction failures and batch failures — all ranged
over by `env` — never change the exit code: no error kind beyond the
configuration error (and the zero-documents outcome) terminates the run
with a non-zero exit. -/
theorem C1_exit_code (env : Env) :
    exitCode (main env) = 0 ↔
      env.missing_vars = [] ∧ env.creds_exists = true ∧
        (load_documents env).documents ≠ [] := by
  unfold main
  by_cases h1 : env.missing_vars = []
  · by_cases h2 : env.creds_exists
    · by_cases h3 : (load_documents env).documents.isEmpty = true
      · have h3' : (load_documents env).documents = [] := by simpa using h3
        simp [h1, h2, h3, h3', exitCode]
      · have h3' : (load_documents env).documents ≠ [] := by simpa using h3
        simp [h1, h2, h3, h3', exitCode]
    · simp [h1, h2, exitCode]
  · simp [h1, exitCode]

/-! ### Claim C6: the empty-tree outcome -/

/-- Environment for the C6 counterexample: configuration present, the
root folder lists successfully and is empty. -/
def envEmptyTree : Env :=
  { missing_vars := []
    creds_exists := true
    svc := fun _ => [Except.ok []]
    folder_id := "root"
    listFuel := 1
    fetch := fun _ => some ()
    reader := fun _ => Except.ok [{ text := "body", metadata := [] }]
    batch_fails := fun _ => false }

/-- Claim C6 counterexample: on an empty folder tree the run discovers
zero files and loads zero documents — and then exits with code 1, the
same exit code as a missing-configuration run, so the no-documents
outcome is fatal rather than the non-fatal warning the claim asserts. -/
theorem C6_counterexample :
    all_files envEmptyTree = [] ∧
    main envEmptyTree = MainOutcome.noDocsExit ∧
    exitCode (main envEmptyTree) = 1 ∧
    exitCode (main { envEmptyTree with missing_vars := ["OPENAI_API_KEY"] }) = 1 :=
  ⟨rfl, rfl, rfl, rfl⟩

/-- Claim C6 (amended): on an empty folder tree (configuration
present), the run completes discovery with zero files and zero
documents, takes the no-documents warning branch — an outcome distinct
from the error-exit branch only in its kind and message — upserts zero
chunks, and terminates with exit code 1, the same exit code as the
missing-configuration case. -/
theorem C6_empty_tree (env : Env) (h1 : env.missing_vars = [])
    (h2 : env.creds_exists = true) (h3 : all_files env = []) :
    main env = MainOutcome.noDocsExit ∧
    (load_documents env).documents = [] ∧
    (load_documents env).success_count = 0 ∧
    chunksUpserted (main env) = 0 ∧
    exitCode (main env) = 1 ∧
    exitCode (main { env with missing_vars := ["OPENAI_API_KEY"] }) = 1 := by
  have hload : load_documents env = ⟨[], 0, 0⟩ := by
    unfold load_documents
    rw [h3]
    rfl
  have hmain : main env = MainOutcome.noDocsExit := by
    unfold main
    rw [if_neg (by simp [h1]), if_neg (by simp [h2])]
    simp [hload]
  refine ⟨hmain, by simp [hload], by simp [hload],
    by rw [hmain]; rfl, by rw [hmain]; rfl, ?_⟩
  unfold main
  rw [if_pos (by simp)]
  rfl

/-- Claim C6 witness: the amended empty-tree theorem applied to the
concrete empty-tree environment. -/
theorem C6_witness :
    main envEmptyTree = MainOutcome.noDocsExit ∧
    (load_documents envEmptyTree).documents = [] ∧
    (load_documents envEmptyTree).success_count = 0 ∧
    chunksUpserted (main envEmptyTree) = 0 ∧
    exitCode (main envEmptyTree) = 1 ∧
    exitCode (main { envEmptyTree with missing_vars := ["OPENAI_API_KEY"] }) = 1 :=
  C6_empty_tree envEmptyTree rfl rfl rfl

/-! ### Claim C2: idempotent upsert -/

section AssocList2

variable {κ ν : Type} [DecidableEq κ]

theorem map_fst_replace (m : List (κ × ν)) (k : κ) (v : ν) :
    (m.map (fun p => if p.1 = k then (k, v) else p)).map Prod.fst = m.map Prod.fst := by
  induction m with
  | nil => rfl
  | cons p rest ih =>
      obtain ⟨k', w⟩ := p
      simp only [List.map_cons]
      by_cases hk : k' = k
      · rw [if_pos (show ((k', w) : κ × ν).1 = k from hk)]
        simp [ih, hk]
      · rw [if_neg (show ¬((k', w) : κ × ν).1 = k from hk)]
        simp [ih]

theorem setKey_keys_nodup (m : List (κ × ν)) (k : κ) (v : ν)
    (h : (m.map Prod.fst).Nodup) : ((setKey m k v).map Prod.fst).Nodup := by
  unfold setKey
  by_cases hs : (getVal m k).isSome
  · rw [if_pos hs, map_fst_replace]
    exact h
  · rw [if_neg hs, List.map_append]
    simp only [List.map_cons, List.map_nil]
    rw [List.nodup_append]
    refine ⟨h, by simp, ?_⟩
    have hk : k ∉ m.map Prod.fst := by
      rw [← getVal_none_iff]
      cases hg : getVal m k with
      | none => rfl
      | some w => rw [hg] at hs; simp at hs
    intro a ha hb
    simp only [List.mem_singleton] at hb
    subst hb
    exact hk ha

theorem updateAll_keys_nodup (entries : List (κ × ν)) :
    ∀ m : List (κ × ν), (m.map Prod.fst).Nodup →
      ((updateAll m entries).map Prod.fst).Nodup := by
  induction entries with
  | nil => intro m h; exact h
  | cons e rest ih =>
      intro m h
      show ((updateAll (setKey m e.1 e.2) rest).map Prod.fst).Nodup
      exact ih _ (setKey_keys_nodup m e.1 e.2 h)

theorem map_replace_id (m : List (κ × ν)) (k : κ) (v : ν)
    (h : k ∉ m.map Prod.fst) :
    m.map (fun p => if p.1 = k then (k, v) else p) = m := by
  induction m with
  | nil => rfl
  | cons p rest ih =>
      obtain ⟨k', w⟩ := p
      simp only [List.map_cons, List.mem_cons] at h ⊢
      push_neg at h
      rw [if_neg (show ¬((k', w) : κ × ν).1 = k from fun hh => h.1 hh.symm)]
      rw [ih h.2]

theorem map_replace_self : ∀ (m : List (κ × ν)) (k : κ) (v : ν),
    (m.map Prod.fst).Nodup → getVal m k = some v →
    m.map (fun p => if p.1 = k then (k, v) else p) = m
  | [], k, v, _, h => by simp [getVal] at h
  | (k', w) :: rest, k, v, hnd, h => by
      simp only [List.map_cons, List.nodup_cons] at hnd
      by_cases hk : k' = k
      · subst hk
        have hv : w = v := by simpa [getVal] using h
        subst hv
        simp only [List.map_cons, ite_self]
        rw [map_replace_id rest k' w hnd.1]
      · have h' : getVal rest k = some v := by simpa [getVal, hk] using h
        simp only [List.map_cons]
        rw [if_neg (show ¬((k', w) : κ × ν).1 = k from hk)]
        rw [map_replace_self rest k v hnd.2 h']

theorem setKey_eq_self (m : List (κ × ν)) (k : κ) (v : ν)
    (hnd : (m.map Prod.fst).Nodup) (h : getVal m k = some v) : setKey m k v = m := by
  unfold setKey
  rw [if_pos (by simp [h])]
  exact map_replace_self m k v hnd h

theorem updateAll_eq_self (entries : List (κ × ν)) : ∀ m : List (κ × ν),
    (m.map Prod.fst).Nodup → (∀ p ∈ entries, getVal m p.1 = some p.2) →
    updateAll m entries = m := by
  induction entries with
  | nil => intro m _ _; rfl
  | cons e rest ih =>
      intro m hnd hall
      show updateAll (setKey m e.1 e.2) rest = m
      rw [setKey_eq_self m e.1 e.2 hnd (hall e (List.mem_cons_self _ _))]
      exact ih m hnd (fun p hp => hall p (List.mem_cons_of_mem _ hp))

end AssocList2

/-- Chunk ids are pairwise distinct: the id is a deterministic function
of (document position, chunk sequence number). -/
theorem entriesOf_keys_nodup (docs : List Doc) :
    ((entriesOf docs).map Prod.fst).Nodup := by
  unfold entriesOf
  rw [List.map_flatMap, List.nodup_flatMap]
  constructor
  · intro p hp
    rw [List.map_map]
    have heq : (Prod.fst ∘ fun q : Nat × (Nat × Nat) => ((p.1, q.1), (p.2, q.2))) =
        (fun j : Nat => (p.1, j)) ∘ Prod.fst := rfl
    rw [heq, ← List.map_map]
    exact List.Nodup.map (fun a b hab => by simpa using hab)
      (List.nodup_enum_map_fst _)
  · have hpw : docs.enum.Pairwise (fun a b => a.1 ≠ b.1) := by
      have hfst := List.nodup_enum_map_fst docs
      rwa [List.Nodup, List.pairwise_map] at hfst
    refine hpw.imp ?_
    intro a b hab
    simp only [Function.onFun]
    intro x hxa hxb
    simp only [List.map_map, List.mem_map, Function.comp_apply] at hxa hxb
    obtain ⟨qa, _, rfl⟩ := hxa
    obtain ⟨qb, _, hqb⟩ := hxb
    exact hab (congrArg Prod.fst hqb).symm

/-- Claim C2: running the chunk-embed-upsert stage twice over an
unchanged document set gives the same index as running it once — each
entry id is a deterministic function of chunk identity, so the second
run overwrites instead of duplicating — hence the index holds no
duplicate ids and the total indexed-vector count is unchanged after the
second run. -/
theorem C2_idempotent_upsert (docs : List Doc)
    (idx : List ((Nat × Nat) × (Doc × (Nat × Nat))))
    (hnd : (idx.map Prod.fst).Nodup) :
    runStage docs (runStage docs idx) = runStage docs idx ∧
    ((runStage docs (runStage docs idx)).map Prod.fst).Nodup ∧
    (runStage docs (runStage docs idx)).length = (runStage docs idx).length := by
  have hE := entriesOf_keys_nodup docs
  have h1 : ((runStage docs idx).map Prod.fst).Nodup :=
    updateAll_keys_nodup (entriesOf docs) idx hnd
  have h2 : ∀ p ∈ entriesOf docs, getVal (runStage docs idx) p.1 = some p.2 :=
    fun p hp => getVal_updateAll_mem (entriesOf docs) idx p.1 p.2 hE hp
  have heq : runStage docs (runStage docs idx) = runStage docs idx :=
    updateAll_eq_self (entriesOf docs) (runStage docs idx) h1 h2
  exact ⟨heq, by rw [heq]; exact h1, by rw [heq]⟩

/-- Claim C2 witness: the idempotence theorem on one concrete document
over an initially empty index. -/
theorem C2_witness :
    (runStage [{ text := "hello world", metadata := [] }]
        (runStage [{ text := "hello world", metadata := [] }] []) =
      runStage [{ text := "hello world", metadata := [] }] []) ∧
    ((runStage [{ text := "hello world", metadata := [] }]
        (runStage [{ text := "hello world", metadata := [] }] [])).map
      Prod.fst).Nodup ∧
    (runStage [{ text := "hello world", metadata := [] }]
        (runStage [{ text := "hello world", metadata := [] }] [])).length =
      (runStage [{ text := "hello world", metadata := [] }] []).length :=
  C2_idempotent_upsert [{ text := "hello world", metadata := [] }] [] (by simp)
